import Mathlib

/-!
Shallow embedding of the queue / worker-tracker services of the
`queues_and_workers` part of this repository
(`src/svcs/queue.ts`, `src/svcs/worker_tracker.ts`, `src/svcs/tasks.ts`).

Modelling conventions:
* Virtual-object state is a Lean structure; `ctx.get` of an unset key yields
  `none` (so `?? []` becomes `Option.getD _ []`), `ctx.set` is a functional
  update, and `ctx.clear` stores `none`.  The durable substrate journals state
  values in serialized form (the spec describes it as a key-striped scheduler
  fronting a key-value store with crash-safe replay), so `ctx.get` hands the
  handler a fresh deserialized copy: mutating the returned array changes the
  stored value only if the handler calls `ctx.set` afterwards.  `queue.ts`
  follows this discipline (every mutation of a fetched array is followed by
  `ctx.set`); two spots in `worker_tracker.ts` do not, and the embedding
  renders those mutations as lost, exactly as the source behaves.
* Calls that leave the service (resolving/rejecting awakeables, sending
  messages, the bodies of `ctx.run` blocks) are recorded as effects, in
  program order; outcomes of external calls are passed in as explicit
  arguments (oracles).
* A handler's outcome is its new state, its effect list, and optionally the
  error it threw to its caller (`TerminalError` vs. other errors).
-/

namespace RestateFun

-- ===========================================================================
-- § Data model, from src/svcs/tasks.ts
-- ===========================================================================

structure Task where
  name : String
  workDef : String
deriving DecidableEq, Repr

structure TaskResult where
  task : Task
  resource : String
deriving DecidableEq, Repr

/-- `TaskBundle` from tasks.ts.  The field name `completedResouces` keeps the
source's spelling. -/
structure TaskBundle where
  tasksToRun : List Task
  completedResouces : List TaskResult
deriving DecidableEq, Repr

-- ===========================================================================
-- § Queue service, from src/svcs/queue.ts
--
-- The queue never inspects the contents of a bundle, so the embedding is
-- generic in the bundle payload type `β` (instantiated with `TaskBundle` or,
-- for ordering arguments, with identifying tags).
-- ===========================================================================

/-- `QueueState` from queue.ts: `{closed: boolean, queue: TaskBundle[],
pollers: string[]}`.  Unset keys read through `?? []` / falsy checks, so the
state is represented with its defaults filled in. -/
structure QueueState (β : Type) where
  closed : Bool
  queue : List β
  pollers : List String
deriving DecidableEq, Repr

/-- The state of a fresh queue object: no key set (all defaults). -/
def initQueueState {β : Type} : QueueState β := ⟨false, [], []⟩

/-- Externally visible awakeable completions emitted by queue handlers. -/
inductive QEffect (β : Type) where
  | resolve (callbackId : String) (bundle : β)
  | reject (callbackId : String) (msg : String)
deriving DecidableEq, Repr

/-- `End` (`TAIL`/`HEAD`) from queue.ts. -/
inductive QEnd where
  | tail
  | head
deriving DecidableEq, Repr

/-- `enqueue(ctx, taskBundle, end)` from queue.ts (lines 119-143): if pollers
are waiting, resolve the first waiting poller with the bundle (the bundle
never touches storage); otherwise store the bundle at the requested end. -/
def enqueue {β : Type} (s : QueueState β) (taskBundle : β) (e : QEnd) :
    QueueState β × List (QEffect β) :=
  match s.pollers with
  | callback :: rest =>
      ({ s with pollers := rest }, [QEffect.resolve callback taskBundle])
  | [] =>
      match e with
      | QEnd.head => ({ s with queue := taskBundle :: s.queue }, [])
      | QEnd.tail => ({ s with queue := s.queue ++ [taskBundle] }, [])

/-- `addBundle` handler: throws `TerminalError("Queue is closed")` when the
queue is closed, else enqueues at the tail. -/
def addBundle {β : Type} (s : QueueState β) (taskBundle : β) :
    Except String (QueueState β × List (QEffect β)) :=
  if s.closed then Except.error "Queue is closed"
  else Except.ok (enqueue s taskBundle QEnd.tail)

/-- `pushBackBundle` handler: enqueues at the head, with no closed-check
("pushing back work works on closed queues!"). -/
def pushBackBundle {β : Type} (s : QueueState β) (taskBundle : β) :
    Except String (QueueState β × List (QEffect β)) :=
  Except.ok (enqueue s taskBundle QEnd.head)

/-- `registerCallback` handler (lines 75-99), invoked on behalf of
`pollBundle`: pop the head bundle and resolve the callback if the queue is
non-empty; else reject if closed; else append the callback to `pollers`. -/
def registerCallback {β : Type} (s : QueueState β) (callbackId : String) :
    QueueState β × List (QEffect β) :=
  match s.queue with
  | task :: rest =>
      ({ s with queue := rest }, [QEffect.resolve callbackId task])
  | [] =>
      if s.closed then (s, [QEffect.reject callbackId "Queue is closed"])
      else ({ s with pollers := s.pollers ++ [callbackId] }, [])

/-- `seal` handler (lines 104-112): set `closed`, then reject every waiting
poller.  Note that the handler never writes the `pollers` key, so the
rejected callback ids stay in the stored list. -/
def sealQueue {β : Type} (s : QueueState β) : QueueState β × List (QEffect β) :=
  ({ s with closed := true },
   s.pollers.map (fun callbackId => QEffect.reject callbackId "queue closed"))

/-- One exclusive operation on a queue object.  `register cb` is the state
mutation performed on behalf of a `pollBundle` call that created awakeable
`cb`. -/
inductive QOp (β : Type) where
  | add (b : β)
  | pushBack (b : β)
  | register (cb : String)
  | sealQueue
deriving DecidableEq, Repr

/-- Execute one operation.  A thrown `addBundle` error propagates to the
producer before any state write, so the state is unchanged and no awakeable
is completed. -/
def qStep {β : Type} (s : QueueState β) : QOp β → QueueState β × List (QEffect β)
  | QOp.add b =>
      match addBundle s b with
      | Except.ok r => r
      | Except.error _ => (s, [])
  | QOp.pushBack b =>
      match pushBackBundle s b with
      | Except.ok r => r
      | Except.error _ => (s, [])
  | QOp.register cb => registerCallback s cb
  | QOp.sealQueue => sealQueue s

/-- Run a sequence of operations, recording each operation with the effects
it emitted. -/
def runTr {β : Type} (s : QueueState β) :
    List (QOp β) → QueueState β × List (QOp β × List (QEffect β))
  | [] => (s, [])
  | op :: rest =>
      let p := qStep s op
      let r := runTr p.1 rest
      (r.1, (op, p.2) :: r.2)

/-- Run a sequence of operations from the initial (fresh-object) state. -/
def runQueue {β : Type} (ops : List (QOp β)) :
    QueueState β × List (QOp β × List (QEffect β)) :=
  runTr initQueueState ops

-- ===========================================================================
-- § C1: the hand-off invariant
-- ===========================================================================

/-- The hand-off discipline: stored bundles and waiting pollers are never
simultaneously non-empty. -/
def handoff {β : Type} (s : QueueState β) : Prop :=
  s.queue = [] ∨ s.pollers = []

-- ===========================================================================
-- § C6: behaviour of a sealed queue
-- ===========================================================================

/-- All effects of a trace, in emission order. -/
def traceEffects {β : Type} : List (QOp β × List (QEffect β)) → List (QEffect β)
  | [] => []
  | p :: rest => p.2 ++ traceEffects rest

/-- Modelled from the spec: an awakeable handle is resolved or rejected at
most once (design note on deferred completion handles), so the first
completion wins and later completions of the same handle have no effect.
`liveResolves effs done` returns the deliveries that actually reach a poller:
resolves to handles not already completed (`done` accumulates the ids of
completed handles). -/
def liveResolves {β : Type} : List (QEffect β) → List String → List (String × β)
  | [], _ => []
  | QEffect.resolve cb b :: rest, done =>
      if cb ∈ done then liveResolves rest done
      else (cb, b) :: liveResolves rest (cb :: done)
  | QEffect.reject cb _ :: rest, done =>
      if cb ∈ done then liveResolves rest done
      else liveResolves rest (cb :: done)

/-- The operation sequence refuting C6 as stated: a poller waits, the queue
is sealed (rejecting the poller's handle but leaving it in `pollers`), then a
bundle is pushed back. -/
def c6ops : List (QOp ℕ) := [QOp.register "cb1", QOp.sealQueue, QOp.pushBack 7]

-- ===========================================================================
-- § Worker tracker service, from src/svcs/worker_tracker.ts
-- ===========================================================================

/-- Errors a handler can throw: `restate.TerminalError` vs. any other
(retryable) runtime error. -/
inductive WErr where
  | terminal (msg : String)
  | nonTerminal (msg : String)
deriving DecidableEq, Repr

/-- `WorkerState` from worker_tracker.ts; each key may be unset (`none`). -/
structure WorkerState where
  queueName : Option String
  workerProcessLocation : Option String
  taskInProgress : Option Task
  pendingTasks : Option (List Task)
  completedTasks : Option (List TaskResult)
  persistedTasks : Option (List TaskResult)
deriving DecidableEq, Repr

/-- The not-started tracker: no key set (also the result of `ctx.clearAll()`). -/
def initWorkerState : WorkerState := ⟨none, none, none, none, none, none⟩

/-- Externally visible actions of worker-tracker handlers, in program order:
the delayed `makeHeartbeat` self-message, a `pollBundle` call on the queue
named by the stored `queueName`, the `ctx.run` handing a task to the worker
process, the `ctx.run` persisting a result, the `ctx.run` notifying the
result sink, the `reportFailed` self-message, a `pushBackBundle` send to the
queue named by the stored `queueName`, and the kill/cleanup `ctx.run`. -/
inductive WEffect where
  | scheduleHeartbeat
  | poll (queueName : Option String)
  | dispatch (task : Task)
  | persistAttempt (result : TaskResult)
  | notifyAttempt
  | sendReportFailed
  | pushBackTo (queueName : Option String) (bundle : TaskBundle)
  | killCleanup
deriving DecidableEq, Repr

/-- Outcome of one handler invocation: the stored state afterwards, the
effects emitted (in order), and the error thrown to the caller, if any. -/
structure WOut where
  state : WorkerState
  effects : List WEffect
  err : Option WErr
deriving DecidableEq, Repr

/-- `initiateNextTask` (worker_tracker.ts lines 206-224).  The handler reads
`pendingTasks` (a fresh deserialized copy of the stored value), pops its head
into `nextTask` (`pendingTasks?.shift()`, which yields `undefined` both for a
missing key and for an empty array), and if a task was obtained sets
`taskInProgress` and hands the task to the worker process via a retried
`ctx.run` whose outcome is `dispatchO`.  The shifted local array is never
written back (there is no `ctx.set("pendingTasks", ...)`), so the stored
`pendingTasks` key is unchanged.  The boolean mirrors the source's return
value. -/
def initiateNextTask (s : WorkerState) (dispatchO : Except WErr Unit) :
    WOut × Bool :=
  match (s.pendingTasks.getD []).head? with
  | none => (⟨s, [], none⟩, false)
  | some nextTask =>
      match dispatchO with
      | Except.error e =>
          (⟨{ s with taskInProgress := some nextTask },
            [WEffect.dispatch nextTask], some e⟩, false)
      | Except.ok _ =>
          (⟨{ s with taskInProgress := some nextTask },
            [WEffect.dispatch nextTask], none⟩, true)

/-- `taskComplete` handler (worker_tracker.ts lines 65-114).
`completedTasks.push(taskResult)` mutates a local copy of the stored value
and is never followed by `ctx.set("completedTasks", ...)`, so the stored
`completedTasks` key is unchanged.  `taskInProgress` is cleared.  If the
stored `pendingTasks` list is non-empty the next task is dispatched and the
handler returns; otherwise the final result is persisted (`persistO`) and the
sink notified (`notifyO`) inside a try/catch whose catch sends `reportFailed`
to self for a `TerminalError` and rethrows anything else; on success the task
keys are cleared, the next bundle is polled (`pollO`), and dispatch resumes.
Reading `pendingTasks` through the `!` assertion when the key is unset makes
`.length` throw a `TypeError` (a non-terminal runtime error). -/
def taskComplete (s : WorkerState) (taskResult : TaskResult)
    (persistO : Except WErr String) (notifyO : Except WErr Unit)
    (dispatchO : Except WErr Unit) (pollO : TaskBundle) : WOut :=
  let s1 : WorkerState := { s with taskInProgress := none }
  match s1.pendingTasks with
  | none => ⟨s1, [], some (WErr.nonTerminal "TypeError")⟩
  | some pending =>
      if 0 < pending.length then
        let o := (initiateNextTask s1 dispatchO).1
        ⟨o.state, o.effects, o.err⟩
      else
        match persistO with
        | Except.error (WErr.terminal _) =>
            ⟨s1, [WEffect.persistAttempt taskResult, WEffect.sendReportFailed], none⟩
        | Except.error (WErr.nonTerminal m) =>
            ⟨s1, [WEffect.persistAttempt taskResult], some (WErr.nonTerminal m)⟩
        | Except.ok _ =>
            match notifyO with
            | Except.error (WErr.terminal _) =>
                ⟨s1, [WEffect.persistAttempt taskResult, WEffect.notifyAttempt,
                      WEffect.sendReportFailed], none⟩
            | Except.error (WErr.nonTerminal m) =>
                ⟨s1, [WEffect.persistAttempt taskResult, WEffect.notifyAttempt],
                 some (WErr.nonTerminal m)⟩
            | Except.ok _ =>
                let s2 : WorkerState :=
                  { s1 with pendingTasks := none, completedTasks := none,
                            persistedTasks := none }
                let s3 : WorkerState :=
                  { s2 with pendingTasks := some pollO.tasksToRun,
                            persistedTasks := some pollO.completedResouces }
                let o := (initiateNextTask s3 dispatchO).1
                ⟨o.state,
                 [WEffect.persistAttempt taskResult, WEffect.notifyAttempt,
                  WEffect.poll s2.queueName] ++ o.effects, o.err⟩

/-- The drain loop of `checkpointResults` (lines 129-133): shift each result,
persist it (`persistF`), and push `{task, resource}` onto the local
`persisted` array; a persist failure aborts the loop and propagates. -/
def checkpointLoop (persistF : TaskResult → Except WErr String) :
    List TaskResult → List TaskResult →
    List WEffect × Except WErr (List TaskResult)
  | [], persisted => ([], Except.ok persisted)
  | nextResult :: rest, persisted =>
      match persistF nextResult with
      | Except.error e => ([WEffect.persistAttempt nextResult], Except.error e)
      | Except.ok url =>
          let k := checkpointLoop persistF rest (persisted ++ [⟨nextResult.task, url⟩])
          (WEffect.persistAttempt nextResult :: k.1, k.2)

/-- `checkpointResults` handler (worker_tracker.ts lines 120-142): drain the
local copy of `completedTasks`, persisting each entry into the local copy of
`persistedTasks`, then store the updated `persistedTasks` and an empty
`completedTasks` (both via `ctx.set`, so these writes do land). -/
def checkpointResults (s : WorkerState)
    (persistF : TaskResult → Except WErr String) : WOut :=
  let results := s.completedTasks.getD []
  let persisted := s.persistedTasks.getD []
  let k := checkpointLoop persistF results persisted
  match k.2 with
  | Except.error e => ⟨s, k.1, some e⟩
  | Except.ok persistedOut =>
      ⟨{ s with persistedTasks := some persistedOut, completedTasks := some [] },
       k.1, none⟩

/-- `reportFailed` handler (worker_tracker.ts lines 147-175): rebuild a
bundle from the originating tasks of the stored `completedTasks` (in order)
followed by the stored `pendingTasks`, with the stored `persistedTasks` as
the carried-over completed resources; send it to the head of the originating
queue via `pushBackBundle`; `ctx.clearAll()`; tear down the process. -/
def reportFailed (s : WorkerState) : WOut :=
  let toRestart := (s.completedTasks.getD []).map (fun result => result.task)
  let pendingTasks := toRestart ++ s.pendingTasks.getD []
  let persisted := s.persistedTasks.getD []
  let bundle : TaskBundle := ⟨pendingTasks, persisted⟩
  ⟨initWorkerState,
   [WEffect.pushBackTo s.queueName bundle, WEffect.killCleanup], none⟩

/-- JavaScript truthiness of the stored `queueName` as tested by
`checkNotAlreadyStarted` (`if (queue)`): false for a missing key (null) and
for the empty string. -/
def tsTruthyString : Option String → Bool
  | none => false
  | some str => !(str == "")

/-- `checkNotAlreadyStarted` (worker_tracker.ts lines 242-247): throw
`TerminalError("Worker already started")` when the stored `queueName` is
truthy. -/
def checkNotAlreadyStarted (s : WorkerState) : Option WErr :=
  if tsTruthyString s.queueName then some (WErr.terminal "Worker already started")
  else none

/-- `startWorker` handler (worker_tracker.ts lines 40-60): check not already
started; store `queueName` and `workerProcessLocation`; schedule the first
heartbeat; poll a bundle (`pollO`) from the queue; split it into
`pendingTasks` / `persistedTasks`; dispatch the first task. -/
def startWorker (s : WorkerState) (queueName worker : String)
    (pollO : TaskBundle) (dispatchO : Except WErr Unit) : WOut :=
  match checkNotAlreadyStarted s with
  | some e => ⟨s, [], some e⟩
  | none =>
      let s1 : WorkerState :=
        { s with queueName := some queueName,
                 workerProcessLocation := some worker }
      let s2 : WorkerState :=
        { s1 with pendingTasks := some pollO.tasksToRun,
                  persistedTasks := some pollO.completedResouces }
      let o := (initiateNextTask s2 dispatchO).1
      ⟨o.state,
       [WEffect.scheduleHeartbeat, WEffect.poll (some queueName)] ++ o.effects,
       o.err⟩

-- ===========================================================================
-- § Worker-tracker claims
-- ===========================================================================

def taskA : Task := ⟨"A", "workA"⟩

def taskB : Task := ⟨"B", "workB"⟩

def resultA : TaskResult := ⟨taskA, "resA"⟩

-- ===========================================================================
-- § C5: delivery order
--
-- For the ordering argument the queue is run over `β := ℕ`: since the queue
-- code never inspects a bundle, a run over arbitrary bundles is the same run
-- with each inserted bundle replaced by a tag.  Tags are assumed strictly
-- increasing in insertion order (`insertedIds` pairwise `<`), so "inserted
-- earlier" is literally `<` on tags.
-- ===========================================================================

/-- The bundle payloads resolved to pollers by a list of effects, in order. -/
def effResolved {β : Type} : List (QEffect β) → List β
  | [] => []
  | QEffect.resolve _ b :: rest => b :: effResolved rest
  | QEffect.reject _ _ :: rest => effResolved rest

/-- The bundles delivered (resolved to some poller handle) over a trace, in
delivery order. -/
def resolvedIds {β : Type} : List (QOp β × List (QEffect β)) → List β
  | [] => []
  | p :: rest => effResolved p.2 ++ resolvedIds rest

/-- The callback ids receiving resolves in a list of effects, in order. -/
def effResolvedCbs {β : Type} : List (QEffect β) → List String
  | [] => []
  | QEffect.resolve cb _ :: rest => cb :: effResolvedCbs rest
  | QEffect.reject _ _ :: rest => effResolvedCbs rest

/-- Is this operation a producer-side insertion (runs `enqueue`)? -/
def isEnqOp {β : Type} : QOp β → Bool
  | QOp.add _ => true
  | QOp.pushBack _ => true
  | QOp.register _ => false
  | QOp.sealQueue => false

/-- The callbacks served by the hand-off path of `enqueue` (inside
`addBundle` / `pushBackBundle`), in service order: these are exactly the
waiting pollers that get served. -/
def servedByEnq {β : Type} : List (QOp β × List (QEffect β)) → List String
  | [] => []
  | p :: rest =>
      (if isEnqOp p.1 then effResolvedCbs p.2 else []) ++ servedByEnq rest

/-- The callback ids passed to `registerCallback`, in registration order. -/
def registerCbs {β : Type} : List (QOp β) → List String
  | [] => []
  | QOp.register cb :: rest => cb :: registerCbs rest
  | QOp.add _ :: rest => registerCbs rest
  | QOp.pushBack _ :: rest => registerCbs rest
  | QOp.sealQueue :: rest => registerCbs rest

/-- The bundles inserted by `addBundle` operations, in insertion order. -/
def addIds {β : Type} : List (QOp β) → List β
  | [] => []
  | QOp.add b :: rest => b :: addIds rest
  | QOp.pushBack _ :: rest => addIds rest
  | QOp.register _ :: rest => addIds rest
  | QOp.sealQueue :: rest => addIds rest

/-- The bundles inserted by `pushBackBundle` operations, in insertion
order. -/
def pushIds {β : Type} : List (QOp β) → List β
  | [] => []
  | QOp.pushBack b :: rest => b :: pushIds rest
  | QOp.add _ :: rest => pushIds rest
  | QOp.register _ :: rest => pushIds rest
  | QOp.sealQueue :: rest => pushIds rest

/-- All inserted bundles, in insertion order. -/
def insertedIds {β : Type} : List (QOp β) → List β
  | [] => []
  | QOp.add b :: rest => b :: insertedIds rest
  | QOp.pushBack b :: rest => b :: insertedIds rest
  | QOp.register _ :: rest => insertedIds rest
  | QOp.sealQueue :: rest => insertedIds rest

/-- The run invariant behind the delivery-order properties.  `ops` are the
operations executed so far, `s` the resulting state, `tr` the trace.
Components: the hand-off invariant; the stored queue splits into a push-back
segment followed by an add segment whose tags increase and all exceed every
already-delivered add tag; delivered add tags appear in increasing order;
everything delivered or stored was inserted, exactly once; and the pollers
served by the hand-off path, followed by the still-waiting pollers, form a
subsequence of the registration order. -/
structure QInv (ops : List (QOp ℕ)) (s : QueueState ℕ)
    (tr : List (QOp ℕ × List (QEffect ℕ))) : Prop where
  hand : s.queue = [] ∨ s.pollers = []
  split : ∃ pb ad, s.queue = pb ++ ad ∧
      (∀ x ∈ pb, x ∈ pushIds ops) ∧
      (∀ x ∈ ad, x ∈ addIds ops) ∧
      ad.Pairwise (· < ·) ∧
      (∀ a ∈ ad, ∀ d ∈ resolvedIds tr, d ∈ addIds ops → d < a)
  dsort : (resolvedIds tr).Pairwise
      (fun x y => x ∈ addIds ops → y ∈ addIds ops → x < y)
  memIns : ∀ x, x ∈ resolvedIds tr ++ s.queue → x ∈ insertedIds ops
  nod : (resolvedIds tr ++ s.queue).Nodup
  served : (servedByEnq tr ++ s.pollers).Sublist (registerCbs ops)

/-- Stability of "p is delivered before a": either p is already in a
delivered-list prefix that excludes a, or a is undelivered and p sits ahead
of every queue position where a could be. -/
def tInv (p a : ℕ) (s : QueueState ℕ) (d : List ℕ) : Prop :=
  (∃ pre suf, d = pre ++ suf ∧ p ∈ pre ∧ a ∉ pre) ∨
  (a ∉ d ∧ ∃ l1 l2, s.queue = l1 ++ p :: l2 ∧ a ∉ l1)

/-- A concrete run exercising C5: a waiting poller, two tail insertions, a
push-back, and two further pollers. -/
def c5ops : List (QOp ℕ) :=
  [QOp.register "c1", QOp.add 0, QOp.add 1, QOp.pushBack 2,
   QOp.register "c2", QOp.register "c3"]

-- ===========================================================================
-- § Theorems
-- ===========================================================================


theorem handoff_enqueue {β : Type} (s : QueueState β) (b : β) (e : QEnd)
    (h : handoff s) : handoff (enqueue s b e).1 := by
  unfold handoff enqueue
  cases hp : s.pollers with
  | cons cb rest =>
      have hq : s.queue = [] := by
        rcases h with h | h
        · exact h
        · rw [hp] at h; exact absurd h (List.cons_ne_nil _ _)
      simp [hq]
  | nil =>
      cases e <;> simp

theorem handoff_registerCallback {β : Type} (s : QueueState β) (cb : String)
    (h : handoff s) : handoff (registerCallback s cb).1 := by
  unfold handoff registerCallback
  cases hq : s.queue with
  | cons t rest =>
      have hp : s.pollers = [] := by
        rcases h with h | h
        · rw [hq] at h; exact absurd h (List.cons_ne_nil _ _)
        · exact h
      simp [hp]
  | nil =>
      by_cases hc : s.closed
      · simpa [hc, handoff] using h
      · simp [hc, hq]

theorem handoff_qStep {β : Type} (s : QueueState β) (op : QOp β)
    (h : handoff s) : handoff (qStep s op).1 := by
  cases op with
  | add b =>
      by_cases hc : s.closed
      · simpa [qStep, addBundle, hc] using h
      · simpa [qStep, addBundle, hc] using handoff_enqueue s b QEnd.tail h
  | pushBack b =>
      simpa [qStep, pushBackBundle] using handoff_enqueue s b QEnd.head h
  | register cb => exact handoff_registerCallback s cb h
  | sealQueue =>
      unfold handoff at h ⊢
      simpa [qStep, sealQueue] using h

theorem handoff_runTr {β : Type} (ops : List (QOp β)) :
    ∀ s : QueueState β, handoff s → handoff (runTr s ops).1 := by
  induction ops with
  | nil => intro s h; simpa [runTr] using h
  | cons op rest ih =>
      intro s h
      simpa [runTr] using ih (qStep s op).1 (handoff_qStep s op h)

/-- C1: in every `QueueState` reachable by any sequence of `addBundle`,
`pushBackBundle`, `registerCallback` (on behalf of `pollBundle`) and `seal`
operations from the initial empty state, the stored bundle queue and the
stored pollers list are never simultaneously non-empty. -/
theorem c1_handoff_invariant {β : Type} (ops : List (QOp β)) :
    (runQueue ops).1.queue = [] ∨ (runQueue ops).1.pollers = [] :=
  handoff_runTr ops initQueueState (Or.inl rfl)

-- ===========================================================================
-- § C9: seal leaves the pollers list behind
-- ===========================================================================

/-- C9: `seal()` changes only the `closed` flag of the stored queue state; in
particular the stored pollers list is untouched, so the handle ids rejected
by `seal` remain listed.  Consequently the first `enqueue` after a `seal()`
that found waiting pollers pops a stale, already-rejected handle and resolves
the bundle to that handle instead of storing the bundle (the stored queue is
unchanged). -/
theorem c9_seal_frame {β : Type} (s : QueueState β) :
    (sealQueue s).1 = { s with closed := true } ∧
    (∀ cb rest, s.pollers = cb :: rest →
      QEffect.reject cb "queue closed" ∈ (sealQueue s).2 ∧
      ∀ b e, enqueue (sealQueue s).1 b e =
        ({ (sealQueue s).1 with pollers := rest }, [QEffect.resolve cb b])) := by
  refine ⟨rfl, fun cb rest hp => ⟨?_, fun b e => ?_⟩⟩
  · simp [sealQueue, hp]
  · simp [sealQueue, enqueue, hp]

theorem c9_seal_frame_witness :
    (sealQueue (β := ℕ) ⟨false, [], ["cb1"]⟩).1 = ⟨true, [], ["cb1"]⟩ ∧
    QEffect.reject "cb1" "queue closed" ∈ (sealQueue (β := ℕ) ⟨false, [], ["cb1"]⟩).2 ∧
    enqueue (sealQueue (β := ℕ) ⟨false, [], ["cb1"]⟩).1 5 QEnd.head =
      (⟨true, [], []⟩, [QEffect.resolve "cb1" 5]) := by
  obtain ⟨h1, h2⟩ := c9_seal_frame (β := ℕ) ⟨false, [], ["cb1"]⟩
  obtain ⟨hm, he⟩ := h2 "cb1" [] rfl
  exact ⟨h1, hm, he 5 QEnd.head⟩

/-- C6 (counterexample): after `registerCallback "cb1"` and `seal`,
`pushBackBundle` succeeds but resolves the pushed-back bundle to the
already-rejected handle `cb1`; no live delivery of bundle `7` ever happens,
the final stored queue is empty (the bundle is lost, not deliverable to a
later poller), and a later `registerCallback` is rejected. -/
theorem c6_counterexample :
    pushBackBundle (runTr (initQueueState (β := ℕ)) [QOp.register "cb1", QOp.sealQueue]).1 7 =
      Except.ok (⟨true, [], []⟩, [QEffect.resolve "cb1" 7]) ∧
    liveResolves (traceEffects (runQueue c6ops).2) [] = [] ∧
    (runQueue c6ops).1 = ⟨true, [], []⟩ ∧
    registerCallback (runQueue c6ops).1 "cb2" =
      (⟨true, [], []⟩, [QEffect.reject "cb2" "Queue is closed"]) := by
  refine ⟨?_, ?_, ?_, ?_⟩ <;> rfl

/-- C6 (amended): after `seal()`, every `addBundle` fails with
`"Queue is closed"`, and every `pushBackBundle` succeeds (never raises to
its caller).  Provided no handle is left in the stored pollers list at
push-back time, the pushed-back bundle is stored at the head of the queue and
the next `registerCallback` (on behalf of a later `pollBundle`) delivers it.
(Unamended, the deliverability part fails when stale rejected handles remain
in `pollers` — see the counterexample.) -/
theorem c6_sealed_queue_amended {β : Type} (s : QueueState β) (b : β)
    (hclosed : s.closed = true) :
    addBundle s b = Except.error "Queue is closed" ∧
    (∃ r, pushBackBundle s b = Except.ok r) ∧
    (s.pollers = [] →
      (qStep s (QOp.pushBack b)).1.queue = b :: s.queue ∧
      ∀ cb, registerCallback (qStep s (QOp.pushBack b)).1 cb =
        ({ (qStep s (QOp.pushBack b)).1 with queue := s.queue },
         [QEffect.resolve cb b])) := by
  refine ⟨by simp [addBundle, hclosed], ⟨_, rfl⟩, fun hp => ?_⟩
  have hq : (qStep s (QOp.pushBack b)).1 = { s with queue := b :: s.queue } := by
    simp [qStep, pushBackBundle, enqueue, hp]
  refine ⟨by rw [hq], fun cb => ?_⟩
  rw [hq]
  rfl

theorem c6_sealed_queue_amended_witness :
    addBundle (β := ℕ) ⟨true, [], []⟩ 3 = Except.error "Queue is closed" ∧
    (∃ r, pushBackBundle (β := ℕ) ⟨true, [], []⟩ 3 = Except.ok r) ∧
    ((qStep (β := ℕ) ⟨true, [], []⟩ (QOp.pushBack 3)).1.queue = [3] ∧
      ∀ cb, registerCallback (qStep (β := ℕ) ⟨true, [], []⟩ (QOp.pushBack 3)).1 cb =
        ({ (qStep (β := ℕ) ⟨true, [], []⟩ (QOp.pushBack 3)).1 with queue := ([] : List ℕ) },
         [QEffect.resolve cb 3])) := by
  obtain ⟨h1, h2, h3⟩ := c6_sealed_queue_amended (β := ℕ) ⟨true, [], []⟩ 3 rfl
  exact ⟨h1, h2, h3 rfl⟩

/-- C3 (code evaluation at the failing input): with stored
`pendingTasks = [A, B]`, `initiateNextTask` sets `taskInProgress` to `A` and
dispatches it, but the stored `pendingTasks` still equals `[A, B]` — the head
is not removed from the stored list, because `pendingTasks.shift()` mutates a
local copy that is never written back with `ctx.set`.  The claim (and spec)
say the stored list becomes the former tail `[B]`. -/
theorem c3_initiateNextTask_bug_eval :
    (initiateNextTask ⟨some "q", some "w", none, some [taskA, taskB], some [], some []⟩
        (Except.ok ())).1 =
      ⟨⟨some "q", some "w", some taskA, some [taskA, taskB], some [], some []⟩,
       [WEffect.dispatch taskA], none⟩ ∧
    (initiateNextTask ⟨some "q", some "w", none, some [taskA, taskB], some [], some []⟩
        (Except.ok ())).1.state.pendingTasks ≠ some [taskB] := by
  exact ⟨rfl, by decide⟩

/-- C2 (code evaluation at the failing input): on a worker with stored
`taskInProgress = A`, `pendingTasks = [B]`, `completedTasks = []`,
`taskComplete resultA` leaves the stored `completedTasks` equal to `[]`
instead of `[resultA]` — the `completedTasks.push(taskResult)` mutates a
local copy that is never written back with `ctx.set`.  The rest of the call
behaves as claimed: `taskInProgress` is cleared and re-set to the head of the
stored pending list, that task is dispatched, and the queue is not polled. -/
theorem c2_taskComplete_bug_eval :
    taskComplete ⟨some "q", some "w", some taskA, some [taskB], some [], some []⟩
        resultA (Except.ok "url") (Except.ok ()) (Except.ok ()) ⟨[], []⟩ =
      ⟨⟨some "q", some "w", some taskB, some [taskB], some [], some []⟩,
       [WEffect.dispatch taskB], none⟩ ∧
    (taskComplete ⟨some "q", some "w", some taskA, some [taskB], some [], some []⟩
        resultA (Except.ok "url") (Except.ok ()) (Except.ok ()) ⟨[], []⟩).state.completedTasks
      ≠ some [resultA] := by
  exact ⟨rfl, by decide⟩

/-- C4: for every `WorkerState`, `reportFailed` pushes back (to the queue
named by the stored `queueName`, via `pushBackBundle`) a bundle whose
`tasksToRun` is exactly the originating tasks of the stored `completedTasks`,
in their original relative order, followed by the stored `pendingTasks`, and
whose completed-resources field equals the stored `persistedTasks`; it clears
all of the tracker's state (back to the not-started state) and throws
nothing. -/
theorem c4_reportFailed_pushback (s : WorkerState) :
    (reportFailed s).state = initWorkerState ∧
    (reportFailed s).err = none ∧
    (reportFailed s).effects =
      [WEffect.pushBackTo s.queueName
         ⟨(s.completedTasks.getD []).map (fun result => result.task) ++
            s.pendingTasks.getD [],
          s.persistedTasks.getD []⟩,
       WEffect.killCleanup] :=
  ⟨rfl, rfl, rfl⟩

/-- C7: at bundle finalization inside `taskComplete` (stored `pendingTasks`
empty), a terminal failure of persisting the final result or of notifying
the sink is not propagated to the caller: the handler emits a `reportFailed`
self-message and returns, with no further state change beyond the earlier
clearing of `taskInProgress` and no queue poll; a non-terminal error is
rethrown to the caller instead. -/
theorem c7_finalization_failure (s : WorkerState) (r : TaskResult)
    (mT mN u : String) (notifyO dispatchO : Except WErr Unit)
    (pollO : TaskBundle) (hp : s.pendingTasks = some []) :
    taskComplete s r (Except.error (WErr.terminal mT)) notifyO dispatchO pollO =
      ⟨{ s with taskInProgress := none },
       [WEffect.persistAttempt r, WEffect.sendReportFailed], none⟩ ∧
    taskComplete s r (Except.ok u) (Except.error (WErr.terminal mT)) dispatchO pollO =
      ⟨{ s with taskInProgress := none },
       [WEffect.persistAttempt r, WEffect.notifyAttempt, WEffect.sendReportFailed],
       none⟩ ∧
    taskComplete s r (Except.error (WErr.nonTerminal mN)) notifyO dispatchO pollO =
      ⟨{ s with taskInProgress := none },
       [WEffect.persistAttempt r], some (WErr.nonTerminal mN)⟩ ∧
    taskComplete s r (Except.ok u) (Except.error (WErr.nonTerminal mN)) dispatchO pollO =
      ⟨{ s with taskInProgress := none },
       [WEffect.persistAttempt r, WEffect.notifyAttempt],
       some (WErr.nonTerminal mN)⟩ := by
  refine ⟨?_, ?_, ?_, ?_⟩ <;> simp [taskComplete, hp]

theorem c7_finalization_failure_witness :
    taskComplete ⟨some "q", some "w", some taskA, some [], some [], some []⟩
        resultA (Except.error (WErr.terminal "persist failed")) (Except.ok ())
        (Except.ok ()) ⟨[], []⟩ =
      ⟨⟨some "q", some "w", none, some [], some [], some []⟩,
       [WEffect.persistAttempt resultA, WEffect.sendReportFailed], none⟩ ∧
    taskComplete ⟨some "q", some "w", some taskA, some [], some [], some []⟩
        resultA (Except.error (WErr.nonTerminal "boom")) (Except.ok ())
        (Except.ok ()) ⟨[], []⟩ =
      ⟨⟨some "q", some "w", none, some [], some [], some []⟩,
       [WEffect.persistAttempt resultA], some (WErr.nonTerminal "boom")⟩ := by
  obtain ⟨h1, _, h3, _⟩ :=
    c7_finalization_failure ⟨some "q", some "w", some taskA, some [], some [], some []⟩
      resultA "persist failed" "boom" "u" (Except.ok ()) (Except.ok ()) ⟨[], []⟩ rfl
  exact ⟨h1, h3⟩

theorem checkpointLoop_ok (locator : TaskResult → String) :
    ∀ (results acc : List TaskResult),
      (checkpointLoop (fun r => Except.ok (locator r)) results acc).2 =
        Except.ok (acc ++ results.map (fun r => ⟨r.task, locator r⟩)) := by
  intro results
  induction results with
  | nil => intro acc; simp [checkpointLoop]
  | cons r rest ih =>
      intro acc
      simp [checkpointLoop, ih]

/-- C8: when every persist succeeds (with locator `locator r` for entry `r`)
and no new completions occur between two consecutive `checkpointResults`
calls, the first call empties the stored `completedTasks` and moves every
former entry, with its persisted locator, onto the end of the stored
`persistedTasks`; the second call leaves `persistedTasks` unchanged and
`completedTasks` empty (it changes nothing at all). -/
theorem c8_checkpoint_idempotent (s : WorkerState)
    (locator : TaskResult → String) :
    (checkpointResults s (fun r => Except.ok (locator r))).err = none ∧
    (checkpointResults s (fun r => Except.ok (locator r))).state.completedTasks =
      some [] ∧
    (checkpointResults s (fun r => Except.ok (locator r))).state.persistedTasks =
      some (s.persistedTasks.getD [] ++
        (s.completedTasks.getD []).map (fun r => ⟨r.task, locator r⟩)) ∧
    checkpointResults (checkpointResults s (fun r => Except.ok (locator r))).state
        (fun r => Except.ok (locator r)) =
      ⟨(checkpointResults s (fun r => Except.ok (locator r))).state, [], none⟩ := by
  have h1 := checkpointLoop_ok locator (s.completedTasks.getD []) (s.persistedTasks.getD [])
  refine ⟨?_, ?_, ?_, ?_⟩
  · simp [checkpointResults, h1]
  · simp [checkpointResults, h1]
  · simp [checkpointResults, h1]
  · simp [checkpointResults, h1, checkpointLoop]

theorem initiateNextTask_frame (s : WorkerState) (dispatchO : Except WErr Unit) :
    (initiateNextTask s dispatchO).1.state.queueName = s.queueName ∧
    (initiateNextTask s dispatchO).1.state.pendingTasks = s.pendingTasks := by
  unfold initiateNextTask
  cases (s.pendingTasks.getD []).head? with
  | none => exact ⟨rfl, rfl⟩
  | some t => cases dispatchO <;> exact ⟨rfl, rfl⟩

theorem initiateNextTask_ok_err (s : WorkerState) :
    (initiateNextTask s (Except.ok ())).1.err = none := by
  unfold initiateNextTask
  cases (s.pendingTasks.getD []).head? with
  | none => rfl
  | some t => rfl

theorem startWorker_ok (s : WorkerState) (qn w : String) (pollO : TaskBundle)
    (hc : checkNotAlreadyStarted s = none) :
    (startWorker s qn w pollO (Except.ok ())).err = none ∧
    (startWorker s qn w pollO (Except.ok ())).state.queueName = some qn := by
  unfold startWorker
  rw [hc]
  exact ⟨initiateNextTask_ok_err _, (initiateNextTask_frame _ _).1⟩

/-- C10: starting a not-started worker with `queueName = ""` leaves the
tracker not considered started: the stored `queueName` is `some ""`, which
the already-started check (`if (queue)`) treats as falsy, so a second
`startWorker` on the same worker does not fail with `AlreadyStarted` (it
throws nothing and proceeds to store the new queue name). -/
theorem c10_empty_queueName_not_started (worker worker2 queueName2 : String)
    (pollO pollO2 : TaskBundle) :
    (startWorker initWorkerState "" worker pollO (Except.ok ())).state.queueName =
      some "" ∧
    checkNotAlreadyStarted
      (startWorker initWorkerState "" worker pollO (Except.ok ())).state = none ∧
    (startWorker (startWorker initWorkerState "" worker pollO (Except.ok ())).state
        queueName2 worker2 pollO2 (Except.ok ())).err = none ∧
    (startWorker (startWorker initWorkerState "" worker pollO (Except.ok ())).state
        queueName2 worker2 pollO2 (Except.ok ())).state.queueName = some queueName2 := by
  have h1 := startWorker_ok initWorkerState "" worker pollO rfl
  have hcheck : checkNotAlreadyStarted
      (startWorker initWorkerState "" worker pollO (Except.ok ())).state = none := by
    simp [checkNotAlreadyStarted, tsTruthyString, h1.2]
  have h2 := startWorker_ok
    (startWorker initWorkerState "" worker pollO (Except.ok ())).state
    queueName2 worker2 pollO2 hcheck
  exact ⟨h1.2, hcheck, h2.1, h2.2⟩

theorem addIds_append {β : Type} (l1 l2 : List (QOp β)) :
    addIds (l1 ++ l2) = addIds l1 ++ addIds l2 := by
  induction l1 with
  | nil => rfl
  | cons op rest ih => cases op <;> simp [addIds, ih]

theorem pushIds_append {β : Type} (l1 l2 : List (QOp β)) :
    pushIds (l1 ++ l2) = pushIds l1 ++ pushIds l2 := by
  induction l1 with
  | nil => rfl
  | cons op rest ih => cases op <;> simp [pushIds, ih]

theorem insertedIds_append {β : Type} (l1 l2 : List (QOp β)) :
    insertedIds (l1 ++ l2) = insertedIds l1 ++ insertedIds l2 := by
  induction l1 with
  | nil => rfl
  | cons op rest ih => cases op <;> simp [insertedIds, ih]

theorem registerCbs_append {β : Type} (l1 l2 : List (QOp β)) :
    registerCbs (l1 ++ l2) = registerCbs l1 ++ registerCbs l2 := by
  induction l1 with
  | nil => rfl
  | cons op rest ih => cases op <;> simp [registerCbs, ih]

theorem resolvedIds_append {β : Type} (t1 t2 : List (QOp β × List (QEffect β))) :
    resolvedIds (t1 ++ t2) = resolvedIds t1 ++ resolvedIds t2 := by
  induction t1 with
  | nil => rfl
  | cons p rest ih => simp [resolvedIds, ih]

theorem servedByEnq_append {β : Type} (t1 t2 : List (QOp β × List (QEffect β))) :
    servedByEnq (t1 ++ t2) = servedByEnq t1 ++ servedByEnq t2 := by
  induction t1 with
  | nil => rfl
  | cons p rest ih => simp [servedByEnq, ih]

theorem addIds_subset_insertedIds {β : Type} (l : List (QOp β)) :
    ∀ x ∈ addIds l, x ∈ insertedIds l := by
  induction l with
  | nil => simp [addIds]
  | cons op rest ih =>
      cases op <;> simp [addIds, insertedIds] <;>
        first
        | exact fun x hx => Or.inr (ih x hx)
        | exact ih

theorem pushIds_subset_insertedIds {β : Type} (l : List (QOp β)) :
    ∀ x ∈ pushIds l, x ∈ insertedIds l := by
  induction l with
  | nil => simp [pushIds]
  | cons op rest ih =>
      cases op <;> simp [pushIds, insertedIds] <;>
        first
        | exact fun x hx => Or.inr (ih x hx)
        | exact ih

theorem addIds_pushIds_disjoint {β : Type} (l : List (QOp β))
    (hnd : (insertedIds l).Nodup) : ∀ x ∈ addIds l, x ∉ pushIds l := by
  induction l with
  | nil => simp [addIds]
  | cons op rest ih =>
      cases op with
      | add b =>
          have hb : b ∉ insertedIds rest := (List.nodup_cons.mp hnd).1
          have hrest := ih (List.nodup_cons.mp hnd).2
          intro x hx
          simp only [addIds, List.mem_cons] at hx
          rcases hx with rfl | hx
          · simp only [pushIds]
            exact fun hc => hb (pushIds_subset_insertedIds rest x hc)
          · exact hrest x hx
      | pushBack b =>
          have hb : b ∉ insertedIds rest := (List.nodup_cons.mp hnd).1
          have hrest := ih (List.nodup_cons.mp hnd).2
          intro x hx
          simp only [addIds] at hx
          simp only [pushIds, List.mem_cons]
          intro hc
          rcases hc with rfl | hc
          · exact hb (addIds_subset_insertedIds rest x hx)
          · exact hrest x hx hc
      | register cb => exact ih hnd
      | sealQueue => exact ih hnd

theorem resolvedIds_snoc {β : Type} (tr : List (QOp β × List (QEffect β)))
    (op : QOp β) (effs : List (QEffect β)) :
    resolvedIds (tr ++ [(op, effs)]) = resolvedIds tr ++ effResolved effs := by
  rw [resolvedIds_append]
  simp [resolvedIds]

theorem servedByEnq_snoc {β : Type} (tr : List (QOp β × List (QEffect β)))
    (op : QOp β) (effs : List (QEffect β)) :
    servedByEnq (tr ++ [(op, effs)]) =
      servedByEnq tr ++ (if isEnqOp op then effResolvedCbs effs else []) := by
  rw [servedByEnq_append]
  simp [servedByEnq]

theorem qinv_step_add (ops : List (QOp ℕ)) (b : ℕ) (s : QueueState ℕ)
    (tr : List (QOp ℕ × List (QEffect ℕ)))
    (hfresh : ∀ x ∈ insertedIds ops, x < b)
    (hinv : QInv ops s tr) :
    QInv (ops ++ [QOp.add b]) (qStep s (QOp.add b)).1
      (tr ++ [(QOp.add b, (qStep s (QOp.add b)).2)]) := by
  have haddI : addIds (ops ++ [QOp.add b]) = addIds ops ++ [b] := by
    rw [addIds_append]
    simp [addIds]
  have hpushI : pushIds (ops ++ [QOp.add b]) = pushIds ops := by
    rw [pushIds_append]
    simp [pushIds]
  have hinsI : insertedIds (ops ++ [QOp.add b]) = insertedIds ops ++ [b] := by
    rw [insertedIds_append]
    simp [insertedIds]
  have hregI : registerCbs (ops ++ [QOp.add b]) = registerCbs ops := by
    rw [registerCbs_append]
    simp [registerCbs]
  have hDins : ∀ d ∈ resolvedIds tr, d ∈ insertedIds ops := fun d hd =>
    hinv.memIns d (List.mem_append_left _ hd)
  have hQins : ∀ x ∈ s.queue, x ∈ insertedIds ops := fun x hx =>
    hinv.memIns x (List.mem_append_right _ hx)
  have hmemA : ∀ d, d ∈ insertedIds ops →
      (d ∈ addIds ops ++ [b] ↔ d ∈ addIds ops) := by
    intro d hd
    constructor
    · intro h
      rcases List.mem_append.mp h with h | h
      · exact h
      · exfalso
        have hdb : d = b := by simpa using h
        exact lt_irrefl b (hdb ▸ hfresh d hd)
    · exact List.mem_append_left _
  by_cases hc : s.closed
  · -- closed queue: addBundle throws, state unchanged, no effects
    have h1 : (qStep s (QOp.add b)).1 = s := by
      simp [qStep, addBundle, hc]
    have h2 : (qStep s (QOp.add b)).2 = [] := by
      simp [qStep, addBundle, hc]
    rw [h1, h2]
    have hres : resolvedIds (tr ++ [(QOp.add b, [])]) = resolvedIds tr := by
      rw [resolvedIds_snoc]
      simp [effResolved]
    have hserved : servedByEnq (tr ++ [(QOp.add b, [])]) = servedByEnq tr := by
      rw [servedByEnq_snoc]
      simp [effResolvedCbs]
    refine ⟨hinv.hand, ?_, ?_, ?_, ?_, ?_⟩
    · obtain ⟨pb, ad, hq, hpbm, hadm, hads, hlast⟩ := hinv.split
      refine ⟨pb, ad, hq, ?_, ?_, hads, ?_⟩
      · rw [hpushI]
        exact hpbm
      · rw [haddI]
        exact fun x hx => List.mem_append_left _ (hadm x hx)
      · rw [hres, haddI]
        intro a ha d hd hdA
        exact hlast a ha d hd ((hmemA d (hDins d hd)).mp hdA)
    · rw [hres, haddI]
      refine hinv.dsort.imp_of_mem ?_
      intro x y hx hy h hxA hyA
      exact h ((hmemA x (hDins x hx)).mp hxA) ((hmemA y (hDins y hy)).mp hyA)
    · rw [hres, hinsI]
      exact fun x hx => List.mem_append_left _ (hinv.memIns x hx)
    · rw [hres]
      exact hinv.nod
    · rw [hserved, hregI]
      exact hinv.served
  · cases hp : s.pollers with
    | cons cb ps =>
        have hqnil : s.queue = [] := by
          rcases hinv.hand with h | h
          · exact h
          · rw [hp] at h
            exact absurd h (List.cons_ne_nil _ _)
        have h1 : (qStep s (QOp.add b)).1 = ⟨s.closed, s.queue, ps⟩ := by
          simp [qStep, addBundle, hc, enqueue, hp]
        have h2 : (qStep s (QOp.add b)).2 = [QEffect.resolve cb b] := by
          simp [qStep, addBundle, hc, enqueue, hp]
        rw [h1, h2]
        have hres : resolvedIds (tr ++ [(QOp.add b, [QEffect.resolve cb b])]) =
            resolvedIds tr ++ [b] := by
          rw [resolvedIds_snoc]
          rfl
        have hserved : servedByEnq (tr ++ [(QOp.add b, [QEffect.resolve cb b])]) =
            servedByEnq tr ++ [cb] := by
          rw [servedByEnq_snoc]
          rfl
        refine ⟨Or.inl hqnil, ?_, ?_, ?_, ?_, ?_⟩
        · refine ⟨[], [], by simp [hqnil], ?_, ?_, List.Pairwise.nil, ?_⟩
          · exact fun x hx => absurd hx (List.not_mem_nil x)
          · exact fun x hx => absurd hx (List.not_mem_nil x)
          · exact fun a ha => absurd ha (List.not_mem_nil a)
        · rw [hres, haddI]
          refine List.pairwise_append.mpr ⟨?_, List.pairwise_singleton _ _, ?_⟩
          · refine hinv.dsort.imp_of_mem ?_
            intro x y hx hy h hxA hyA
            exact h ((hmemA x (hDins x hx)).mp hxA) ((hmemA y (hDins y hy)).mp hyA)
          · intro x hx y hy hxA hyA
            have hyb : y = b := by simpa using hy
            subst hyb
            exact hfresh x (hDins x hx)
        · rw [hres, hinsI]
          intro x hx
          rcases List.mem_append.mp hx with hx | hx
          · rcases List.mem_append.mp hx with hx | hx
            · exact List.mem_append_left _ (hDins x hx)
            · exact List.mem_append_right _ hx
          · exact List.mem_append_left _ (hQins x hx)
        · rw [hres]
          have hb : b ∉ resolvedIds tr ++ s.queue := fun h =>
            lt_irrefl b (hfresh b (hinv.memIns b h))
          rw [hqnil]
          rw [hqnil, List.append_nil] at hb
          have hnodD : (resolvedIds tr).Nodup := by
            have := hinv.nod
            rw [hqnil, List.append_nil] at this
            exact this
          simp only [List.append_nil]
          exact List.nodup_append.mpr ⟨hnodD, List.nodup_singleton b,
            fun x hx hxb => hb (by rwa [List.mem_singleton.mp hxb] at hx)⟩
        · rw [hserved, hregI]
          have hassoc : servedByEnq tr ++ [cb] ++ ps = servedByEnq tr ++ s.pollers := by
            rw [hp, List.append_assoc]
            rfl
          rw [hassoc]
          exact hinv.served
    | nil =>
        have h1 : (qStep s (QOp.add b)).1 = ⟨s.closed, s.queue ++ [b], []⟩ := by
          simp [qStep, addBundle, hc, enqueue, hp]
        have h2 : (qStep s (QOp.add b)).2 = [] := by
          simp [qStep, addBundle, hc, enqueue, hp]
        rw [h1, h2]
        have hres : resolvedIds (tr ++ [(QOp.add b, [])]) = resolvedIds tr := by
          rw [resolvedIds_snoc]
          simp [effResolved]
        have hserved : servedByEnq (tr ++ [(QOp.add b, [])]) = servedByEnq tr := by
          rw [servedByEnq_snoc]
          simp [effResolvedCbs]
        refine ⟨Or.inr rfl, ?_, ?_, ?_, ?_, ?_⟩
        · obtain ⟨pb, ad, hq, hpbm, hadm, hads, hlast⟩ := hinv.split
          refine ⟨pb, ad ++ [b], by rw [hq, List.append_assoc], ?_, ?_, ?_, ?_⟩
          · rw [hpushI]
            exact hpbm
          · rw [haddI]
            intro x hx
            rcases List.mem_append.mp hx with hx | hx
            · exact List.mem_append_left _ (hadm x hx)
            · exact List.mem_append_right _ hx
          · refine List.pairwise_append.mpr ⟨hads, List.pairwise_singleton _ _, ?_⟩
            intro x hx y hy
            have hyb : y = b := by simpa using hy
            subst hyb
            exact hfresh x (hQins x (hq ▸ List.mem_append_right pb hx))
          · rw [hres, haddI]
            intro a ha d hd hdA
            have hdA' : d ∈ addIds ops := (hmemA d (hDins d hd)).mp hdA
            rcases List.mem_append.mp ha with ha | ha
            · exact hlast a ha d hd hdA'
            · have hab : a = b := by simpa using ha
              subst hab
              exact hfresh d (hDins d hd)
        · rw [hres, haddI]
          refine hinv.dsort.imp_of_mem ?_
          intro x y hx hy h hxA hyA
          exact h ((hmemA x (hDins x hx)).mp hxA) ((hmemA y (hDins y hy)).mp hyA)
        · rw [hres, hinsI]
          intro x hx
          rcases List.mem_append.mp hx with hx | hx
          · exact List.mem_append_left _ (hDins x hx)
          · rcases List.mem_append.mp hx with hx | hx
            · exact List.mem_append_left _ (hQins x hx)
            · exact List.mem_append_right _ hx
        · rw [hres, ← List.append_assoc]
          have hb : b ∉ resolvedIds tr ++ s.queue := fun h =>
            lt_irrefl b (hfresh b (hinv.memIns b h))
          exact List.nodup_append.mpr ⟨hinv.nod, List.nodup_singleton b,
            fun x hx hxb => hb (by rwa [List.mem_singleton.mp hxb] at hx)⟩
        · rw [hserved, hregI]
          have hps := hinv.served
          rw [hp, List.append_nil] at hps
          simpa using hps

theorem effResolved_map_reject {β : Type} (l : List String) (m : String) :
    effResolved (β := β) (l.map (fun cb => QEffect.reject cb m)) = [] := by
  induction l with
  | nil => rfl
  | cons cb rest ih => simpa [effResolved] using ih

theorem qinv_step_pushBack (ops : List (QOp ℕ)) (b : ℕ) (s : QueueState ℕ)
    (tr : List (QOp ℕ × List (QEffect ℕ)))
    (hfresh : ∀ x ∈ insertedIds ops, x < b)
    (hinv : QInv ops s tr) :
    QInv (ops ++ [QOp.pushBack b]) (qStep s (QOp.pushBack b)).1
      (tr ++ [(QOp.pushBack b, (qStep s (QOp.pushBack b)).2)]) := by
  have haddI : addIds (ops ++ [QOp.pushBack b]) = addIds ops := by
    rw [addIds_append]
    simp [addIds]
  have hpushI : pushIds (ops ++ [QOp.pushBack b]) = pushIds ops ++ [b] := by
    rw [pushIds_append]
    simp [pushIds]
  have hinsI : insertedIds (ops ++ [QOp.pushBack b]) = insertedIds ops ++ [b] := by
    rw [insertedIds_append]
    simp [insertedIds]
  have hregI : registerCbs (ops ++ [QOp.pushBack b]) = registerCbs ops := by
    rw [registerCbs_append]
    simp [registerCbs]
  have hDins : ∀ d ∈ resolvedIds tr, d ∈ insertedIds ops := fun d hd =>
    hinv.memIns d (List.mem_append_left _ hd)
  have hQins : ∀ x ∈ s.queue, x ∈ insertedIds ops := fun x hx =>
    hinv.memIns x (List.mem_append_right _ hx)
  cases hp : s.pollers with
  | cons cb ps =>
      have hqnil : s.queue = [] := by
        rcases hinv.hand with h | h
        · exact h
        · rw [hp] at h
          exact absurd h (List.cons_ne_nil _ _)
      have h1 : (qStep s (QOp.pushBack b)).1 = ⟨s.closed, s.queue, ps⟩ := by
        simp [qStep, pushBackBundle, enqueue, hp]
      have h2 : (qStep s (QOp.pushBack b)).2 = [QEffect.resolve cb b] := by
        simp [qStep, pushBackBundle, enqueue, hp]
      rw [h1, h2]
      have hres : resolvedIds (tr ++ [(QOp.pushBack b, [QEffect.resolve cb b])]) =
          resolvedIds tr ++ [b] := by
        rw [resolvedIds_snoc]
        rfl
      have hserved : servedByEnq (tr ++ [(QOp.pushBack b, [QEffect.resolve cb b])]) =
          servedByEnq tr ++ [cb] := by
        rw [servedByEnq_snoc]
        rfl
      refine ⟨Or.inl hqnil, ?_, ?_, ?_, ?_, ?_⟩
      · refine ⟨[], [], by simp [hqnil], ?_, ?_, List.Pairwise.nil, ?_⟩
        · exact fun x hx => absurd hx (List.not_mem_nil x)
        · exact fun x hx => absurd hx (List.not_mem_nil x)
        · exact fun a ha => absurd ha (List.not_mem_nil a)
      · rw [hres, haddI]
        refine List.pairwise_append.mpr ⟨hinv.dsort, List.pairwise_singleton _ _, ?_⟩
        intro x hx y hy hxA hyA
        have hyb : y = b := by simpa using hy
        subst hyb
        exact absurd (hfresh y (addIds_subset_insertedIds ops y hyA)) (lt_irrefl y)
      · rw [hres, hinsI]
        intro x hx
        rcases List.mem_append.mp hx with hx | hx
        · rcases List.mem_append.mp hx with hx | hx
          · exact List.mem_append_left _ (hDins x hx)
          · exact List.mem_append_right _ hx
        · exact List.mem_append_left _ (hQins x hx)
      · rw [hres]
        have hb : b ∉ resolvedIds tr ++ s.queue := fun h =>
          lt_irrefl b (hfresh b (hinv.memIns b h))
        rw [hqnil]
        rw [hqnil, List.append_nil] at hb
        have hnodD : (resolvedIds tr).Nodup := by
          have := hinv.nod
          rw [hqnil, List.append_nil] at this
          exact this
        simp only [List.append_nil]
        exact List.nodup_append.mpr ⟨hnodD, List.nodup_singleton b,
          fun x hx hxb => hb (by rwa [List.mem_singleton.mp hxb] at hx)⟩
      · rw [hserved, hregI]
        have hassoc : servedByEnq tr ++ [cb] ++ ps = servedByEnq tr ++ s.pollers := by
          rw [hp, List.append_assoc]
          rfl
        rw [hassoc]
        exact hinv.served
  | nil =>
      have h1 : (qStep s (QOp.pushBack b)).1 = ⟨s.closed, b :: s.queue, []⟩ := by
        simp [qStep, pushBackBundle, enqueue, hp]
      have h2 : (qStep s (QOp.pushBack b)).2 = [] := by
        simp [qStep, pushBackBundle, enqueue, hp]
      rw [h1, h2]
      have hres : resolvedIds (tr ++ [(QOp.pushBack b, [])]) = resolvedIds tr := by
        rw [resolvedIds_snoc]
        simp [effResolved]
      have hserved : servedByEnq (tr ++ [(QOp.pushBack b, [])]) = servedByEnq tr := by
        rw [servedByEnq_snoc]
        simp [effResolvedCbs]
      refine ⟨Or.inr rfl, ?_, ?_, ?_, ?_, ?_⟩
      · obtain ⟨pb, ad, hq, hpbm, hadm, hads, hlast⟩ := hinv.split
        refine ⟨b :: pb, ad, by simp [hq], ?_, ?_, hads, ?_⟩
        · rw [hpushI]
          intro x hx
          rcases List.mem_cons.mp hx with rfl | hx
          · exact List.mem_append_right _ (List.mem_singleton_self x)
          · exact List.mem_append_left _ (hpbm x hx)
        · rw [haddI]
          exact hadm
        · rw [hres, haddI]
          exact hlast
      · rw [hres, haddI]
        exact hinv.dsort
      · rw [hres, hinsI]
        intro x hx
        rcases List.mem_append.mp hx with hx | hx
        · exact List.mem_append_left _ (hDins x hx)
        · rcases List.mem_cons.mp hx with rfl | hx
          · exact List.mem_append_right _ (List.mem_singleton_self x)
          · exact List.mem_append_left _ (hQins x hx)
      · rw [hres]
        have hb : b ∉ resolvedIds tr ++ s.queue := fun h =>
          lt_irrefl b (hfresh b (hinv.memIns b h))
        exact (List.perm_middle.nodup_iff).mpr (List.nodup_cons.mpr ⟨hb, hinv.nod⟩)
      · rw [hserved, hregI]
        have hps := hinv.served
        rw [hp, List.append_nil] at hps
        simpa using hps

theorem qinv_step_seal (ops : List (QOp ℕ)) (s : QueueState ℕ)
    (tr : List (QOp ℕ × List (QEffect ℕ)))
    (hinv : QInv ops s tr) :
    QInv (ops ++ [QOp.sealQueue]) (qStep s QOp.sealQueue).1
      (tr ++ [(QOp.sealQueue, (qStep s QOp.sealQueue).2)]) := by
  have haddI : addIds (ops ++ [QOp.sealQueue]) = addIds ops := by
    rw [addIds_append]
    simp [addIds]
  have hpushI : pushIds (ops ++ [QOp.sealQueue]) = pushIds ops := by
    rw [pushIds_append]
    simp [pushIds]
  have hinsI : insertedIds (ops ++ [QOp.sealQueue]) = insertedIds ops := by
    rw [insertedIds_append]
    simp [insertedIds]
  have hregI : registerCbs (ops ++ [QOp.sealQueue]) = registerCbs ops := by
    rw [registerCbs_append]
    simp [registerCbs]
  have h1 : (qStep s QOp.sealQueue).1 = ⟨true, s.queue, s.pollers⟩ := by
    simp [qStep, sealQueue]
  have h2 : (qStep s QOp.sealQueue).2 =
      s.pollers.map (fun cb => QEffect.reject cb "queue closed") := by
    simp [qStep, sealQueue]
  rw [h1, h2]
  have hres : resolvedIds
      (tr ++ [(QOp.sealQueue,
         s.pollers.map (fun cb => QEffect.reject cb "queue closed"))]) =
      resolvedIds tr := by
    rw [resolvedIds_snoc, effResolved_map_reject, List.append_nil]
  have hserved : servedByEnq
      (tr ++ [(QOp.sealQueue,
         s.pollers.map (fun cb => QEffect.reject cb "queue closed"))]) =
      servedByEnq tr := by
    rw [servedByEnq_snoc]
    simp [isEnqOp]
  refine ⟨?_, ?_, ?_, ?_, ?_, ?_⟩
  · rcases hinv.hand with h | h
    · exact Or.inl h
    · exact Or.inr h
  · obtain ⟨pb, ad, hq, hpbm, hadm, hads, hlast⟩ := hinv.split
    refine ⟨pb, ad, hq, ?_, ?_, hads, ?_⟩
    · rw [hpushI]
      exact hpbm
    · rw [haddI]
      exact hadm
    · rw [hres, haddI]
      exact hlast
  · rw [hres, haddI]
    exact hinv.dsort
  · rw [hres, hinsI]
    exact hinv.memIns
  · rw [hres]
    exact hinv.nod
  · rw [hserved, hregI]
    exact hinv.served

theorem qinv_step_register (ops : List (QOp ℕ)) (cb : String) (s : QueueState ℕ)
    (tr : List (QOp ℕ × List (QEffect ℕ)))
    (hndI : (insertedIds ops).Nodup)
    (hinv : QInv ops s tr) :
    QInv (ops ++ [QOp.register cb]) (qStep s (QOp.register cb)).1
      (tr ++ [(QOp.register cb, (qStep s (QOp.register cb)).2)]) := by
  have haddI : addIds (ops ++ [QOp.register cb]) = addIds ops := by
    rw [addIds_append]
    simp [addIds]
  have hpushI : pushIds (ops ++ [QOp.register cb]) = pushIds ops := by
    rw [pushIds_append]
    simp [pushIds]
  have hinsI : insertedIds (ops ++ [QOp.register cb]) = insertedIds ops := by
    rw [insertedIds_append]
    simp [insertedIds]
  have hregI : registerCbs (ops ++ [QOp.register cb]) = registerCbs ops ++ [cb] := by
    rw [registerCbs_append]
    simp [registerCbs]
  cases hq0 : s.queue with
  | cons t rest =>
      have hpnil : s.pollers = [] := by
        rcases hinv.hand with h | h
        · rw [hq0] at h
          exact absurd h (List.cons_ne_nil _ _)
        · exact h
      have h1 : (qStep s (QOp.register cb)).1 = ⟨s.closed, rest, s.pollers⟩ := by
        simp [qStep, registerCallback, hq0]
      have h2 : (qStep s (QOp.register cb)).2 = [QEffect.resolve cb t] := by
        simp [qStep, registerCallback, hq0]
      rw [h1, h2]
      have hres : resolvedIds (tr ++ [(QOp.register cb, [QEffect.resolve cb t])]) =
          resolvedIds tr ++ [t] := by
        rw [resolvedIds_snoc]
        rfl
      have hservedE : servedByEnq (tr ++ [(QOp.register cb, [QEffect.resolve cb t])]) =
          servedByEnq tr := by
        rw [servedByEnq_snoc]
        simp [isEnqOp]
      obtain ⟨pb, ad, hq, hpbm, hadm, hads, hlast⟩ := hinv.split
      have hta : pb ++ ad = t :: rest := by rw [← hq, hq0]
      have hmain : (∃ pb2 ad2, rest = pb2 ++ ad2 ∧
          (∀ x ∈ pb2, x ∈ pushIds ops) ∧
          (∀ x ∈ ad2, x ∈ addIds ops) ∧
          ad2.Pairwise (· < ·) ∧
          (∀ a ∈ ad2, ∀ d ∈ resolvedIds tr ++ [t], d ∈ addIds ops → d < a)) ∧
          (∀ x ∈ resolvedIds tr, x ∈ addIds ops → t ∈ addIds ops → x < t) := by
        cases pb with
        | nil =>
            have had : ad = t :: rest := by simpa using hta
            constructor
            · refine ⟨[], rest, rfl, ?_, ?_, ?_, ?_⟩
              · exact fun x hx => absurd hx (List.not_mem_nil x)
              · intro x hx
                exact hadm x (had ▸ List.mem_cons_of_mem t hx)
              · have h := hads
                rw [had] at h
                exact h.of_cons
              · intro a ha d hd hdA
                rcases List.mem_append.mp hd with hd | hd
                · exact hlast a (had ▸ List.mem_cons_of_mem t ha) d hd hdA
                · have hdt : d = t := by simpa using hd
                  subst hdt
                  have h := hads
                  rw [had] at h
                  exact List.rel_of_pairwise_cons h ha
            · intro x hx hxA htA
              exact hlast t (had ▸ List.mem_cons_self t rest) x hx hxA
        | cons pHead pbTail =>
            simp only [List.cons_append, List.cons.injEq] at hta
            obtain ⟨heq, hrest⟩ := hta
            have htP : t ∈ pushIds ops :=
              heq ▸ hpbm pHead (List.mem_cons_self pHead pbTail)
            have htnA : t ∉ addIds ops := fun h =>
              addIds_pushIds_disjoint ops hndI t h htP
            constructor
            · refine ⟨pbTail, ad, hrest.symm, ?_, hadm, hads, ?_⟩
              · exact fun x hx => hpbm x (List.mem_cons_of_mem _ hx)
              · intro a ha d hd hdA
                rcases List.mem_append.mp hd with hd | hd
                · exact hlast a ha d hd hdA
                · have hdt : d = t := by simpa using hd
                  subst hdt
                  exact absurd hdA htnA
            · intro x hx hxA htA
              exact absurd htA htnA
      refine ⟨Or.inr hpnil, ?_, ?_, ?_, ?_, ?_⟩
      · obtain ⟨pb2, ad2, hr, hp2, ha2, hs2, hl2⟩ := hmain.1
        refine ⟨pb2, ad2, hr, ?_, ?_, hs2, ?_⟩
        · rw [hpushI]
          exact hp2
        · rw [haddI]
          exact ha2
        · rw [hres, haddI]
          exact hl2
      · rw [hres, haddI]
        refine List.pairwise_append.mpr
          ⟨hinv.dsort, List.pairwise_singleton _ _, ?_⟩
        intro x hx y hy hxA hyA
        have hyt : y = t := by simpa using hy
        subst hyt
        exact hmain.2 x hx hxA hyA
      · rw [hres, hinsI]
        intro x hx
        apply hinv.memIns
        rw [hq0, List.append_cons]
        exact hx
      · rw [hres]
        have h := hinv.nod
        rw [hq0, List.append_cons] at h
        exact h
      · rw [hservedE, hregI]
        exact hinv.served.trans (List.sublist_append_left _ _)
  | nil =>
      by_cases hc : s.closed
      · have h1 : (qStep s (QOp.register cb)).1 = s := by
          simp [qStep, registerCallback, hq0, hc]
        have h2 : (qStep s (QOp.register cb)).2 =
            [QEffect.reject cb "Queue is closed"] := by
          simp [qStep, registerCallback, hq0, hc]
        rw [h1, h2]
        have hres : resolvedIds
            (tr ++ [(QOp.register cb, [QEffect.reject cb "Queue is closed"])]) =
            resolvedIds tr := by
          rw [resolvedIds_snoc]
          simp [effResolved]
        have hservedE : servedByEnq
            (tr ++ [(QOp.register cb, [QEffect.reject cb "Queue is closed"])]) =
            servedByEnq tr := by
          rw [servedByEnq_snoc]
          simp [isEnqOp]
        refine ⟨hinv.hand, ?_, ?_, ?_, ?_, ?_⟩
        · obtain ⟨pb, ad, hq, hpbm, hadm, hads, hlast⟩ := hinv.split
          refine ⟨pb, ad, hq, ?_, ?_, hads, ?_⟩
          · rw [hpushI]
            exact hpbm
          · rw [haddI]
            exact hadm
          · rw [hres, haddI]
            exact hlast
        · rw [hres, haddI]
          exact hinv.dsort
        · rw [hres, hinsI]
          exact hinv.memIns
        · rw [hres]
          exact hinv.nod
        · rw [hservedE, hregI]
          exact hinv.served.trans (List.sublist_append_left _ _)
      · have h1 : (qStep s (QOp.register cb)).1 =
            ⟨s.closed, s.queue, s.pollers ++ [cb]⟩ := by
          simp [qStep, registerCallback, hq0, hc]
        have h2 : (qStep s (QOp.register cb)).2 = [] := by
          simp [qStep, registerCallback, hq0, hc]
        rw [h1, h2]
        have hres : resolvedIds (tr ++ [(QOp.register cb, [])]) = resolvedIds tr := by
          rw [resolvedIds_snoc]
          simp [effResolved]
        have hservedE : servedByEnq (tr ++ [(QOp.register cb, [])]) =
            servedByEnq tr := by
          rw [servedByEnq_snoc]
          simp [effResolvedCbs]
        refine ⟨Or.inl hq0, ?_, ?_, ?_, ?_, ?_⟩
        · obtain ⟨pb, ad, hq, hpbm, hadm, hads, hlast⟩ := hinv.split
          refine ⟨pb, ad, hq, ?_, ?_, hads, ?_⟩
          · rw [hpushI]
            exact hpbm
          · rw [haddI]
            exact hadm
          · rw [hres, haddI]
            exact hlast
        · rw [hres, haddI]
          exact hinv.dsort
        · rw [hres, hinsI]
          exact hinv.memIns
        · rw [hres]
          exact hinv.nod
        · rw [hservedE, hregI, ← List.append_assoc]
          exact hinv.served.append (List.Sublist.refl [cb])

theorem qinv_step (ops : List (QOp ℕ)) (op : QOp ℕ) (s : QueueState ℕ)
    (tr : List (QOp ℕ × List (QEffect ℕ)))
    (hord : (insertedIds (ops ++ [op])).Pairwise (· < ·))
    (hinv : QInv ops s tr) :
    QInv (ops ++ [op]) (qStep s op).1 (tr ++ [(op, (qStep s op).2)]) := by
  cases op with
  | add b =>
      have hfresh : ∀ x ∈ insertedIds ops, x < b := by
        rw [insertedIds_append] at hord
        intro x hx
        exact (List.pairwise_append.mp hord).2.2 x hx b (by simp [insertedIds])
      exact qinv_step_add ops b s tr hfresh hinv
  | pushBack b =>
      have hfresh : ∀ x ∈ insertedIds ops, x < b := by
        rw [insertedIds_append] at hord
        intro x hx
        exact (List.pairwise_append.mp hord).2.2 x hx b (by simp [insertedIds])
      exact qinv_step_pushBack ops b s tr hfresh hinv
  | register cb =>
      have hnd : (insertedIds ops).Nodup := by
        rw [insertedIds_append] at hord
        exact ((List.pairwise_append.mp hord).1).imp (fun h => Nat.ne_of_lt h)
      exact qinv_step_register ops cb s tr hnd hinv
  | sealQueue => exact qinv_step_seal ops s tr hinv

theorem qinv_extend : ∀ (rest pre : List (QOp ℕ)) (s : QueueState ℕ)
    (tr : List (QOp ℕ × List (QEffect ℕ))),
    (insertedIds (pre ++ rest)).Pairwise (· < ·) →
    QInv pre s tr →
    QInv (pre ++ rest) (runTr s rest).1 (tr ++ (runTr s rest).2) := by
  intro rest
  induction rest with
  | nil =>
      intro pre s tr hord hinv
      simpa [runTr] using hinv
  | cons op rest2 ih =>
      intro pre s tr hord hinv
      have hord1 : (insertedIds ((pre ++ [op]) ++ rest2)).Pairwise (· < ·) := by
        rw [List.append_assoc]
        simpa using hord
      have hordPre : (insertedIds (pre ++ [op])).Pairwise (· < ·) := by
        refine List.Pairwise.sublist ?_ hord1
        rw [insertedIds_append (pre ++ [op]) rest2]
        exact List.sublist_append_left _ _
      have hstep := qinv_step pre op s tr hordPre hinv
      have hrec := ih (pre ++ [op]) (qStep s op).1
        (tr ++ [(op, (qStep s op).2)]) hord1 hstep
      have hrun1 : (runTr s (op :: rest2)).1 =
          (runTr (qStep s op).1 rest2).1 := by
        simp [runTr]
      have hrun2 : (runTr s (op :: rest2)).2 =
          (op, (qStep s op).2) :: (runTr (qStep s op).1 rest2).2 := by
        simp [runTr]
      rw [List.append_cons pre op rest2, hrun1, hrun2,
        List.append_cons tr (op, (qStep s op).2) (runTr (qStep s op).1 rest2).2]
      exact hrec

theorem qinv_run (ops : List (QOp ℕ))
    (hord : (insertedIds ops).Pairwise (· < ·)) :
    QInv ops (runQueue ops).1 (runQueue ops).2 := by
  have hinit : QInv [] (initQueueState (β := ℕ)) [] := by
    refine ⟨Or.inl rfl, ⟨[], [], rfl, ?_, ?_, List.Pairwise.nil, ?_⟩,
      List.Pairwise.nil, ?_, List.nodup_nil, ?_⟩
    · exact fun x hx => absurd hx (List.not_mem_nil x)
    · exact fun x hx => absurd hx (List.not_mem_nil x)
    · exact fun a ha => absurd ha (List.not_mem_nil a)
    · exact fun x hx => absurd hx (List.not_mem_nil x)
    · exact List.nil_sublist _
  have h := qinv_extend ops [] initQueueState [] (by simpa using hord) hinit
  simpa [runQueue] using h

theorem runTr_append {β : Type} (l1 : List (QOp β)) :
    ∀ (s : QueueState β) (l2 : List (QOp β)),
    runTr s (l1 ++ l2) =
      ((runTr (runTr s l1).1 l2).1,
       (runTr s l1).2 ++ (runTr (runTr s l1).1 l2).2) := by
  induction l1 with
  | nil => intro s l2; simp [runTr]
  | cons op rest ih =>
      intro s l2
      simp [runTr, ih]

theorem runQueue_decomp (ops1 ops2 : List (QOp ℕ)) (op : QOp ℕ) :
    resolvedIds (runQueue (ops1 ++ op :: ops2)).2 =
      resolvedIds (runQueue ops1).2 ++
      (effResolved (qStep (runQueue ops1).1 op).2 ++
       resolvedIds (runTr (qStep (runQueue ops1).1 op).1 ops2).2) := by
  unfold runQueue
  rw [runTr_append]
  simp [runTr, resolvedIds_append, resolvedIds]

theorem tInv_step (p a : ℕ) (op : QOp ℕ) (s : QueueState ℕ) (d : List ℕ)
    (hand : s.queue = [] ∨ s.pollers = [])
    (hpb : ∀ b, op = QOp.pushBack b → a ≠ b)
    (hap : a ≠ p)
    (ht : tInv p a s d) :
    tInv p a (qStep s op).1 (d ++ effResolved (qStep s op).2) := by
  rcases ht with ⟨pre, suf, hd, hpp, ha⟩ | ⟨haD, l1, l2, hq, hal⟩
  · exact Or.inl ⟨pre, suf ++ effResolved (qStep s op).2,
      by rw [hd, List.append_assoc], hpp, ha⟩
  · have hqne : s.queue ≠ [] := by
      rw [hq]
      simp
    have hpnil : s.pollers = [] := by
      rcases hand with h | h
      · exact absurd h hqne
      · exact h
    cases op with
    | add b =>
        by_cases hc : s.closed
        · have h1 : (qStep s (QOp.add b)).1 = s := by
            simp [qStep, addBundle, hc]
          have h2 : effResolved (qStep s (QOp.add b)).2 = [] := by
            simp [qStep, addBundle, hc, effResolved]
          rw [h1, h2, List.append_nil]
          exact Or.inr ⟨haD, l1, l2, hq, hal⟩
        · have h1 : (qStep s (QOp.add b)).1 = ⟨s.closed, s.queue ++ [b], []⟩ := by
            simp [qStep, addBundle, hc, enqueue, hpnil]
          have h2 : effResolved (qStep s (QOp.add b)).2 = [] := by
            simp [qStep, addBundle, hc, enqueue, hpnil, effResolved]
          rw [h1, h2, List.append_nil]
          refine Or.inr ⟨haD, l1, l2 ++ [b], ?_, hal⟩
          show s.queue ++ [b] = l1 ++ p :: (l2 ++ [b])
          rw [hq]
          simp
    | pushBack b =>
        have hab : a ≠ b := hpb b rfl
        have h1 : (qStep s (QOp.pushBack b)).1 = ⟨s.closed, b :: s.queue, []⟩ := by
          simp [qStep, pushBackBundle, enqueue, hpnil]
        have h2 : effResolved (qStep s (QOp.pushBack b)).2 = [] := by
          simp [qStep, pushBackBundle, enqueue, hpnil, effResolved]
        rw [h1, h2, List.append_nil]
        refine Or.inr ⟨haD, b :: l1, l2, ?_, ?_⟩
        · show b :: s.queue = (b :: l1) ++ p :: l2
          rw [hq]
          rfl
        · intro hmem
          rcases List.mem_cons.mp hmem with rfl | hmem
          · exact hab rfl
          · exact hal hmem
    | register cb =>
        cases hl1 : l1 with
        | nil =>
            have hq2 : s.queue = p :: l2 := by
              rw [hq, hl1]
              rfl
            have h1 : (qStep s (QOp.register cb)).1 =
                ⟨s.closed, l2, s.pollers⟩ := by
              simp [qStep, registerCallback, hq2]
            have h2 : effResolved (qStep s (QOp.register cb)).2 = [p] := by
              simp [qStep, registerCallback, hq2, effResolved]
            rw [h1, h2]
            refine Or.inl ⟨d ++ [p], [], by rw [List.append_nil],
              List.mem_append_right _ (List.mem_singleton_self p), ?_⟩
            intro h
            rcases List.mem_append.mp h with h | h
            · exact haD h
            · exact hap (List.mem_singleton.mp h)
        | cons t l1t =>
            have hq2 : s.queue = t :: (l1t ++ p :: l2) := by
              rw [hq, hl1]
              rfl
            have h1 : (qStep s (QOp.register cb)).1 =
                ⟨s.closed, l1t ++ p :: l2, s.pollers⟩ := by
              simp [qStep, registerCallback, hq2]
            have h2 : effResolved (qStep s (QOp.register cb)).2 = [t] := by
              simp [qStep, registerCallback, hq2, effResolved]
            rw [h1, h2]
            have hat : a ≠ t := fun h =>
              hal (hl1 ▸ (h ▸ List.mem_cons_self t l1t))
            refine Or.inr ⟨?_, l1t, l2, rfl, ?_⟩
            · intro h
              rcases List.mem_append.mp h with h | h
              · exact haD h
              · exact hat (List.mem_singleton.mp h)
            · intro h
              exact hal (hl1 ▸ List.mem_cons_of_mem t h)
    | sealQueue =>
        have h1 : (qStep s QOp.sealQueue).1 = ⟨true, s.queue, s.pollers⟩ := by
          simp [qStep, sealQueue]
        have h2 : effResolved (qStep s QOp.sealQueue).2 = [] := by
          simp [qStep, sealQueue, effResolved_map_reject]
        rw [h1, h2, List.append_nil]
        exact Or.inr ⟨haD, l1, l2, hq, hal⟩

theorem pushIds_cons_subset {β : Type} (op : QOp β) (rest : List (QOp β)) :
    ∀ b ∈ pushIds rest, b ∈ pushIds (op :: rest) := by
  cases op <;> intro b hb <;> simp [pushIds, hb]

theorem tInv_run (p a : ℕ) :
    ∀ (ops : List (QOp ℕ)) (s : QueueState ℕ) (d : List ℕ),
    (s.queue = [] ∨ s.pollers = []) →
    (∀ b ∈ pushIds ops, a ≠ b) →
    a ≠ p →
    tInv p a s d →
    tInv p a (runTr s ops).1 (d ++ resolvedIds (runTr s ops).2) := by
  intro ops
  induction ops with
  | nil =>
      intro s d hand hpb hap ht
      simpa [runTr, resolvedIds] using ht
  | cons op rest ih =>
      intro s d hand hpb hap ht
      have hstep := tInv_step p a op s d hand
        (fun b hb => hpb b (by rw [hb]; simp [pushIds])) hap ht
      have hand2 := handoff_qStep s op hand
      have hrec := ih (qStep s op).1 (d ++ effResolved (qStep s op).2) hand2
        (fun b hb => hpb b (pushIds_cons_subset op rest b hb)) hap hstep
      have hrun1 : (runTr s (op :: rest)).1 = (runTr (qStep s op).1 rest).1 := by
        simp [runTr]
      have hrun2 : resolvedIds (runTr s (op :: rest)).2 =
          effResolved (qStep s op).2 ++ resolvedIds (runTr (qStep s op).1 rest).2 := by
        simp [runTr, resolvedIds]
      rw [hrun1, hrun2, ← List.append_assoc]
      exact hrec

theorem pushBack_delivered_first (ops1 ops2 : List (QOp ℕ)) (p a : ℕ)
    (hord : (insertedIds (ops1 ++ QOp.pushBack p :: ops2)).Pairwise (· < ·))
    (ha : a ∈ addIds (ops1 ++ QOp.pushBack p :: ops2))
    (hnd : a ∉ resolvedIds (runQueue ops1).2)
    (hpdel : p ∈ resolvedIds (runQueue (ops1 ++ QOp.pushBack p :: ops2)).2) :
    ∃ pre suf,
      resolvedIds (runQueue (ops1 ++ QOp.pushBack p :: ops2)).2 = pre ++ suf ∧
      p ∈ pre ∧ a ∉ pre := by
  have hndI : (insertedIds (ops1 ++ QOp.pushBack p :: ops2)).Nodup :=
    hord.imp (fun h => Nat.ne_of_lt h)
  have hpP : p ∈ pushIds (ops1 ++ QOp.pushBack p :: ops2) := by
    rw [pushIds_append]
    exact List.mem_append_right _ (by simp [pushIds])
  have hap : a ≠ p := fun h =>
    addIds_pushIds_disjoint _ hndI a ha (h ▸ hpP)
  have hdec := runQueue_decomp ops1 ops2 (QOp.pushBack p)
  have hand1 : (runQueue ops1).1.queue = [] ∨ (runQueue ops1).1.pollers = [] :=
    c1_handoff_invariant ops1
  cases hpol : (runQueue ops1).1.pollers with
  | cons cb ps =>
      -- hand-off: p is delivered at its own insertion
      have he : effResolved (qStep (runQueue ops1).1 (QOp.pushBack p)).2 = [p] := by
        simp [qStep, pushBackBundle, enqueue, hpol, effResolved]
      refine ⟨resolvedIds (runQueue ops1).2 ++ [p],
        resolvedIds (runTr (qStep (runQueue ops1).1 (QOp.pushBack p)).1 ops2).2,
        ?_, List.mem_append_right _ (List.mem_singleton_self p), ?_⟩
      · rw [hdec, he, ← List.append_assoc]
      · intro h
        rcases List.mem_append.mp h with h | h
        · exact hnd h
        · exact hap (List.mem_singleton.mp h)
  | nil =>
      -- stored at the head; run the stability invariant over ops2
      have h1 : (qStep (runQueue ops1).1 (QOp.pushBack p)).1 =
          ⟨(runQueue ops1).1.closed, p :: (runQueue ops1).1.queue, []⟩ := by
        simp [qStep, pushBackBundle, enqueue, hpol]
      have he : effResolved (qStep (runQueue ops1).1 (QOp.pushBack p)).2 = [] := by
        simp [qStep, pushBackBundle, enqueue, hpol, effResolved]
      have hpb2 : ∀ b ∈ pushIds ops2, a ≠ b := by
        intro b hb h
        apply addIds_pushIds_disjoint _ hndI a ha
        rw [pushIds_append]
        refine List.mem_append_right _ ?_
        simp only [pushIds, List.mem_cons]
        exact Or.inr (h ▸ hb)
      have ht0 : tInv p a (qStep (runQueue ops1).1 (QOp.pushBack p)).1
          (resolvedIds (runQueue ops1).2) := by
        rw [h1]
        exact Or.inr ⟨hnd, [], (runQueue ops1).1.queue, rfl,
          List.not_mem_nil a⟩
      have hand2 : (qStep (runQueue ops1).1 (QOp.pushBack p)).1.queue = [] ∨
          (qStep (runQueue ops1).1 (QOp.pushBack p)).1.pollers = [] := by
        rw [h1]
        exact Or.inr rfl
      have hfin := tInv_run p a ops2
        (qStep (runQueue ops1).1 (QOp.pushBack p)).1
        (resolvedIds (runQueue ops1).2) hand2 hpb2 hap ht0
      rw [hdec, he, List.nil_append]
      rcases hfin with ⟨pre, suf, hd, hpp, hanp⟩ | ⟨haD, _, _, _, _⟩
      · exact ⟨pre, suf, hd, hpp, hanp⟩
      · refine ⟨resolvedIds (runQueue ops1).2 ++
          resolvedIds (runTr (qStep (runQueue ops1).1 (QOp.pushBack p)).1 ops2).2,
          [], by rw [List.append_nil], ?_, haD⟩
        rw [hdec, he, List.nil_append] at hpdel
        exact hpdel

/-- C5: delivery order per queue, over an arbitrary operation sequence whose
inserted bundles are tagged in strictly increasing insertion order (the queue
never inspects bundle contents, so running it over tags loses no
generality — "inserted earlier" is `<` on tags):
(1) bundles inserted by `addBundle` are delivered — resolved to a poller
handle — in insertion order relative to each other;
(2) a bundle `p` inserted by `pushBackBundle` is delivered before every
`addBundle`-inserted bundle `a` that was not yet delivered when `p` was
inserted: whenever `p` is delivered at all, the delivery list splits into a
part containing `p` but not `a`, followed by the rest;
(3) waiting pollers are served by the hand-off path of `enqueue` in the
order their callbacks were registered: the served-callback sequence is a
subsequence of the registration sequence. -/
theorem c5_delivery_order (ops : List (QOp ℕ))
    (hord : (insertedIds ops).Pairwise (· < ·)) :
    ((resolvedIds (runQueue ops).2).filter
        (fun b => decide (b ∈ addIds ops))).Pairwise (· < ·) ∧
    (∀ ops1 p ops2 a, ops = ops1 ++ QOp.pushBack p :: ops2 →
      a ∈ addIds ops →
      a ∉ resolvedIds (runQueue ops1).2 →
      p ∈ resolvedIds (runQueue ops).2 →
      ∃ pre suf, resolvedIds (runQueue ops).2 = pre ++ suf ∧
        p ∈ pre ∧ a ∉ pre) ∧
    (servedByEnq (runQueue ops).2).Sublist (registerCbs ops) := by
  have hinv := qinv_run ops hord
  refine ⟨?_, ?_, ?_⟩
  · have hf := hinv.dsort.filter (fun b => decide (b ∈ addIds ops))
    refine hf.imp_of_mem ?_
    intro x y hx hy h
    simp only [List.mem_filter, decide_eq_true_eq] at hx hy
    exact h hx.2 hy.2
  · intro ops1 p ops2 a hops ha hnd hpdel
    subst hops
    exact pushBack_delivered_first ops1 ops2 p a hord ha hnd hpdel
  · exact (List.sublist_append_left _ _).trans hinv.served

theorem c5_delivery_order_witness :
    (insertedIds c5ops).Pairwise (· < ·) ∧
    (((resolvedIds (runQueue c5ops).2).filter
        (fun b => decide (b ∈ addIds c5ops))).Pairwise (· < ·) ∧
     (∀ ops1 p ops2 a, c5ops = ops1 ++ QOp.pushBack p :: ops2 →
       a ∈ addIds c5ops →
       a ∉ resolvedIds (runQueue ops1).2 →
       p ∈ resolvedIds (runQueue c5ops).2 →
       ∃ pre suf, resolvedIds (runQueue c5ops).2 = pre ++ suf ∧
         p ∈ pre ∧ a ∉ pre) ∧
     (servedByEnq (runQueue c5ops).2).Sublist (registerCbs c5ops)) :=
  ⟨by decide, c5_delivery_order c5ops (by decide)⟩

end RestateFun
